import Mathlib

/-!
Verification of the text-transform engine of the `truncated-aptitle` web
component (repository `wernerglinka/truncatedAPTitle`).

The repository ships two variants of the component in
`src/lib/truncaptitle.js`:

* the autonomous custom element (`class TruncatedAPTitle extends
  HTMLElement`), modelled below in namespace `Elem`;
* the customized built-in span element (`class TruncatedAPTitle extends
  HTMLSpanElement`), modelled below in namespace `Span`.

JavaScript strings are modelled as Lean `String`s (lists of characters);
all character-level operations (`toLowerCase`, `toUpperCase`, `\w`,
`\s`) are modelled on the basic-latin range, which is the range the
source's regular expressions (`/\w+/g`) and case conversions act on.
JavaScript numbers arising from the `textlength` attribute are modelled
as `Option Int`, with `none` playing the role of `NaN`.
-/

/-- JS `\w` word character: ASCII letter, digit, or underscore
(`[A-Za-z0-9_]`). -/
def isWordChar (c : Char) : Bool :=
  (65 ≤ c.toNat && c.toNat ≤ 90) || (97 ≤ c.toNat && c.toNat ≤ 122) ||
    (48 ≤ c.toNat && c.toNat ≤ 57) || c = '_'

/-- JS `String.prototype.toLowerCase`, character by character
(basic-latin range, which is all the source operates on). -/
def jsToLower (s : String) : String :=
  String.mk (s.data.map Char.toLower)

/-- A JS number that is either an actual (integer) value or `NaN`
(`none`).  The only numbers in the modelled code paths are integers
obtained from attribute strings. -/
abbrev JSNum := Option Int

/-- Subtraction on JS numbers; `NaN` propagates. -/
def jsSub (a : JSNum) (b : Int) : JSNum := a.map (fun v => v - b)

/-- JS `str.length < n` where `n` may be `NaN`: every comparison with
`NaN` is false. -/
def jsLtLen (len : Nat) (n : JSNum) : Bool :=
  match n with
  | none => false
  | some v => (len : Int) < v

/-- JS `str.substr(0, n)`: a negative `n` is clamped to `0`, and a `NaN`
`n` is converted to `0`, so both yield the empty string. -/
def jsSubstrTo (s : String) (n : JSNum) : String :=
  match n with
  | none => ""
  | some v => String.mk (s.data.take v.toNat)

/-- Index of the last `' '` of a character list (largest index holding a
space), if any. -/
def lastSpaceIdx : List Char → Option Nat
  | [] => none
  | c :: t =>
    match lastSpaceIdx t with
    | some k => some (k + 1)
    | none => if c = ' ' then some 0 else none

/-- JS `str.lastIndexOf(" ")`: the largest index of a space, or `-1`. -/
def lastIndexOfSpace (s : String) : Int :=
  match lastSpaceIdx s.data with
  | none => -1
  | some k => (k : Int)

/-- Numeric value of a list of decimal digits. -/
def digitsVal (t : List Char) : Nat :=
  t.foldl (fun acc c => acc * 10 + (c.toNat - 48)) 0

/-- JS `ToNumber` on the attribute strings this component consumes:
surrounding whitespace is trimmed, the empty string converts to `0`, an
optionally signed run of decimal digits converts to its value, and any
other string converts to `NaN` (`none`).  (Exotic numeric literal forms
such as hexadecimal or exponent notation do not occur in this component's
attribute values and are out of scope of the model.) -/
def toNumberLit (s : String) : JSNum :=
  let t := ((s.data.dropWhile Char.isWhitespace).reverse.dropWhile Char.isWhitespace).reverse
  match t with
  | [] => some 0
  | '-' :: rest =>
    if !rest.isEmpty && rest.all Char.isDigit then some (-(digitsVal rest : Int)) else none
  | '+' :: rest =>
    if !rest.isEmpty && rest.all Char.isDigit then some ((digitsVal rest : Int)) else none
  | _ => if t.all Char.isDigit then some ((digitsVal t : Int)) else none

namespace Elem

/-- `truncateAfterWord(str, chars)` of the autonomous custom element:
`if (!chars || !str) return str;`
`return str.length < chars ? str : str.substr(0, str.substr(0, chars - 3).lastIndexOf(" ")) + "..."`.
The `chars` argument is the `textlength` prop: `null` (`none`) or an
attribute string; the placeholder is the hard-coded three-character
`"..."`. -/
def truncateAfterWord (str : String) (chars : Option String) : String :=
  match chars with
  | none => str
  | some c =>
    if c = "" ∨ str = "" then str
    else
      let n := toNumberLit c
      if jsLtLen str.length n then str
      else jsSubstrTo str (some (lastIndexOfSpace (jsSubstrTo str (jsSub n 3)))) ++ "..."

end Elem

namespace Span

/-- `truncateAfterWord(str, chars, placeholder = '…')` of the span
variant: `if (!chars) return str;`
`return str.length < chars ? str : str.substr(0, str.substr(0, chars - placeholder.length).lastIndexOf(" ")) + placeholder`.
All call sites in the source use the default placeholder `"…"`. -/
def truncateAfterWord (str : String) (chars : Option String) (placeholder : String) : String :=
  match chars with
  | none => str
  | some c =>
    if c = "" then str
    else
      let n := toNumberLit c
      if jsLtLen str.length n then str
      else
        jsSubstrTo str
          (some (lastIndexOfSpace (jsSubstrTo str (jsSub n (placeholder.length : Int))))) ++
          placeholder

end Span

/-! ### The AP-style title caser, autonomous element variant

`apStyleTitleCase(str)` of the autonomous custom element lowercases the
whole string and then runs `replace(/\w+/g, fn)` where `fn(word, index)`
capitalizes the word when `index === 0` or
`index + word.length === str.length`, returns it unchanged when it is in
the `lowercaseWords` array, and capitalizes it otherwise. -/

/-- `word.charAt(0).toUpperCase() + word.substr(1)` on a character
list. -/
def capFirst : List Char → List Char
  | [] => []
  | c :: cs => c.toUpper :: cs

namespace Elem

/-- The fixed stop-word array of the autonomous element. -/
def lowercaseWords : List String :=
  ["a", "an", "and", "at", "but", "by", "for", "in", "nor", "of", "on", "or",
    "so", "the", "to", "up", "yet"]

/-- The replacement callback of `replace(/\w+/g, ...)`: `L` is
`str.length`, `start` the match offset, `w` the matched word (taken from
the lowercased string). -/
def wordReplace (L start : Nat) (w : List Char) : List Char :=
  if start = 0 ∨ start + w.length = L then capFirst w
  else if lowercaseWords.contains (String.mk w) then w
  else capFirst w

/-- One pass of `replace(/\w+/g, fn)` over the (lowercased) character
list: `i` is the index of the next character, `acc` the word-characters
matched so far of the currently scanned word. -/
def go (L : Nat) : List Char → Nat → List Char → List Char
  | [], i, acc => if acc.isEmpty then [] else wordReplace L (i - acc.length) acc
  | c :: cs, i, acc =>
    if isWordChar c then go L cs (i + 1) (acc ++ [c])
    else
      (if acc.isEmpty then [] else wordReplace L (i - acc.length) acc) ++
        c :: go L cs (i + 1) []

/-- `apStyleTitleCase(str)` of the autonomous custom element. -/
def apStyleTitleCase (str : String) : String :=
  if str = "" then ""
  else String.mk (go str.length (jsToLower str).data 0 [])

end Elem

/-! ### The AP-style title caser, span element variant

`apStyleTitleCase(value)` of the span variant splits on
`/(\s+|[-‑–—,:;!?()])/` (so separators sit at odd indices of the
resulting array), maps every odd-index token to itself and every
even-index token through the first/last/stop-word rule — where the
stop-word test is `stop.includes(lower)` with `stop` the *string*
`'a an and at but by for in nor of on or so the to up yet'`, i.e. a
substring-containment test — and joins the results. -/

namespace Span

/-- `capitalize(value)`: `value.charAt(0).toUpperCase() + value.slice(1)`. -/
def capitalize (value : String) : String :=
  String.mk (capFirst value.data)

/-- The `smallwords` string of the span variant (note: a single string,
not an array). -/
def smallwords : String := "a an and at but by for in nor of on or so the to up yet"

/-- Membership in the single-character punctuation alternative of the
splitter `/(\s+|[-‑–—,:;!?()])/`. -/
def isSplitPunct (c : Char) : Bool :=
  c = '-' || c = '‑' || c = '–' || c = '—' || c = ',' || c = ':' || c = ';' ||
    c = '!' || c = '?' || c = '(' || c = ')'

/-- The scan of `value.split(/(\s+|[-‑–—,:;!?()])/)`: `acc` holds the
characters of the token currently being built (in reverse), and the
`Bool` says whether that token is a whitespace run being matched by
`\s+` (`true`) or a non-matching stretch (`false`).  Separators occupy
the odd indices of the result, non-matching stretches (the "words",
possibly empty) the even indices. -/
def splitGo : List Char → List Char → Bool → List String
  | [], acc, false => [String.mk acc.reverse]
  | [], acc, true => [String.mk acc.reverse, ""]
  | c :: cs, acc, false =>
    if isSplitPunct c then
      String.mk acc.reverse :: String.mk [c] :: splitGo cs [] false
    else if c.isWhitespace then
      String.mk acc.reverse :: splitGo cs [c] true
    else splitGo cs (c :: acc) false
  | c :: cs, acc, true =>
    if c.isWhitespace then splitGo cs (c :: acc) true
    else if isSplitPunct c then
      String.mk acc.reverse :: "" :: String.mk [c] :: splitGo cs [] false
    else String.mk acc.reverse :: splitGo cs [c] false

/-- `value.split(/(\s+|[-‑–—,:;!?()])/)`. -/
def jsSplit (value : String) : List String := splitGo value.data [] false

/-- JS `String.prototype.includes`: `needle` occurs as a contiguous
substring of `hay`. -/
def listIsPrefixOf : List Char → List Char → Bool
  | [], _ => true
  | _ :: _, [] => false
  | a :: as, b :: bs => a == b && listIsPrefixOf as bs

/-- Does `needle` occur (as a contiguous run) somewhere in the list? -/
def listOccurs (needle : List Char) : List Char → Bool
  | [] => needle.isEmpty
  | c :: t => listIsPrefixOf needle (c :: t) || listOccurs needle t

/-- JS `hay.includes(needle)`. -/
def strIncludes (hay needle : String) : Bool := listOccurs needle.data hay.data

/-- The map applied to token `word` at index `i` of the split array of
length `n`:
`if (index % 2) return word;` then
`if (index !== 0 && index !== all.length - 1 && stop.includes(lower)) return lower;`
`return this.capitalize(word);`. -/
def mapTok (n i : Nat) (word : String) : String :=
  if i % 2 = 1 then word
  else if i ≠ 0 ∧ i ≠ n - 1 ∧ strIncludes smallwords (jsToLower word) = true then
    jsToLower word
  else capitalize word

/-- `Array.prototype.join('')`. -/
def concatAll : List String → String
  | [] => ""
  | t :: ts => t ++ concatAll ts

/-- `apStyleTitleCase(value)` of the span variant. -/
def apStyleTitleCase (value : String) : String :=
  if value = "" then ""
  else
    let all := jsSplit value
    concatAll (all.enum.map (fun p => mapTok all.length p.1 p.2))

end Span


/-! ### The controller state of the two components

The component state as the source keeps it: `props` / `originalAttributes`
(the authoritative source text), the `textlength` attribute value
(`null` or a string), the presence of the `apstyle` attribute, and the
element's rendered `textContent`. -/

/-- JS `s.slice(0, -3)`: drop the last three characters (clamped at the
start). -/
def jsSliceDropLast3 (s : String) : String :=
  String.mk (s.data.take (s.data.length - 3))

/-- State of the autonomous custom element: `props.text`,
`props.textlength`, `props.apstyle`, and the rendered `textContent`. -/
structure ElemState where
  text : String
  textlength : Option String
  apstyle : Bool
  textContent : String

/-- State of the span variant: `originalAttributes.text`, the live
`textlength` attribute, the presence of `apstyle`, and the rendered
`textContent`. -/
structure SpanState where
  text : String
  textlengthAttr : Option String
  apstyleAttr : Bool
  textContent : String

/-- The autonomous element's `updateTextContent(text)`:
`if (!text) return;` then `textContent = apstyle ?
apStyleTitleCase(truncateAfterWord(text, textlength)) :
truncateAfterWord(text, textlength)`. -/
def Elem.updateTextContent (st : ElemState) (text : String) : ElemState :=
  if text = "" then st
  else
    let trimmedText := Elem.truncateAfterWord text st.textlength
    { st with textContent :=
        if st.apstyle then Elem.apStyleTitleCase trimmedText else trimmedText }

/-- The autonomous element's `text` property setter:
`set text(value) { this.props.text = value; this.updateTextContent(value); }`. -/
def Elem.setText (st : ElemState) (value : String) : ElemState :=
  Elem.updateTextContent { st with text := value } value

/-- The span variant's `updateTextContent(text)` (no emptiness guard;
attributes are read live). -/
def Span.updateTextContent (st : SpanState) (text : String) : SpanState :=
  let trimmedText := Span.truncateAfterWord text st.textlengthAttr "…"
  { st with textContent :=
      if st.apstyleAttr then Span.apStyleTitleCase trimmedText else trimmedText }

/-- One `characterData`/`childList` mutation record of the autonomous
element, for an observed `textContent` of `observed` (the DOM already
holds `observed` when the callback runs):
`newtext = observed.toLowerCase().slice(0, -3)`; if `newtext` is *not* a
substring of `props.text.toLowerCase()`, store `observed` as
`props.text` and recompute; otherwise do nothing (there is no else
branch in this variant). -/
def Elem.mutationTextRecord (st : ElemState) (observed : String) : ElemState :=
  let st1 : ElemState := { st with textContent := observed }
  let newtext := jsSliceDropLast3 (jsToLower observed)
  if Span.strIncludes (jsToLower st1.text) newtext = false then
    Elem.updateTextContent { st1 with text := observed } observed
  else st1

/-- One `characterData`/`childList` mutation record of the span variant:
as above, but with an else branch that recomputes the display from the
stored original text. -/
def Span.mutationTextRecord (st : SpanState) (observed : String) : SpanState :=
  let st1 : SpanState := { st with textContent := observed }
  let newtext := jsSliceDropLast3 (jsToLower observed)
  if Span.strIncludes (jsToLower st1.text) newtext = false then
    Span.updateTextContent { st1 with text := observed } observed
  else Span.updateTextContent st1 st1.text

/-- The display composition named by the specification, for the
autonomous element's transforms:
`StyleEnabled ? TitleCaser(Truncator(original, length)) : Truncator(original, length)`. -/
def displaySpecElem (apstyle : Bool) (tl : Option String) (source : String) : String :=
  if apstyle then Elem.apStyleTitleCase (Elem.truncateAfterWord source tl)
  else Elem.truncateAfterWord source tl

/-- The display composition named by the specification, for the span
variant's transforms. -/
def displaySpecSpan (apstyle : Bool) (tl : Option String) (source : String) : String :=
  if apstyle then Span.apStyleTitleCase (Span.truncateAfterWord source tl "…")
  else Span.truncateAfterWord source tl "…"

/-- A character the span splitter leaves inside a word token: neither
boundary punctuation nor whitespace. -/
def Span.isTokChar (c : Char) : Bool := !(Span.isSplitPunct c || c.isWhitespace)




/-! ### Basic facts about the string primitives -/

theorem strData_append (a b : String) : (a ++ b).data = a.data ++ b.data := by
  cases a; cases b; rfl

theorem strLength_data (s : String) : s.length = s.data.length := rfl

theorem mk_nil_append (ph : String) : String.mk [] ++ ph = ph := by
  cases ph; rfl

theorem lastSpaceIdx_spec :
    ∀ (l : List Char) (k : Nat), lastSpaceIdx l = some k →
      k < l.length ∧ l.get? k = some ' ' := by
  intro l
  induction l with
  | nil => intro k h; simp [lastSpaceIdx] at h
  | cons c t ih =>
    intro k h
    unfold lastSpaceIdx at h
    cases ht : lastSpaceIdx t with
    | some j =>
      rw [ht] at h
      cases h
      have := ih j ht
      exact ⟨by simpa using Nat.succ_lt_succ this.1, by simpa using this.2⟩
    | none =>
      rw [ht] at h
      by_cases hc : c = ' '
      · simp [hc] at h
        subst h
        simp [hc]
      · simp [hc] at h

theorem lastSpaceIdx_eq_none :
    ∀ (l : List Char), lastSpaceIdx l = none ↔ ' ' ∉ l := by
  intro l
  induction l with
  | nil => simp [lastSpaceIdx]
  | cons c t ih =>
    unfold lastSpaceIdx
    cases ht : lastSpaceIdx t with
    | some j =>
      simp only [ht]
      constructor
      · intro h; cases h
      · intro h
        exfalso
        have : ' ' ∈ t := by
          have := (lastSpaceIdx_spec t j ht).2
          exact List.get?_mem this
        exact h (List.mem_cons_of_mem _ this)
    | none =>
      by_cases hc : c = ' '
      · simp [ht, hc]
      · simp [ht, hc, Ne.symm hc]
        intro h
        exact (ih.mp ht) h

theorem toNumberLit_empty : toNumberLit "" = some 0 := by decide

/-- Core shape of the truncating branch shared by the two
`truncateAfterWord` variants: the kept part is a prefix of `str` that
either is empty or ends right before a space of `str`, and (in the
latter case) fits under the limit with room for the placeholder. -/
theorem trunc_core_shape (str : String) (L : Nat) (plen : Nat)
    (hlen : L ≤ str.length) :
    ∃ m,
      jsSubstrTo str
          (some (lastIndexOfSpace (jsSubstrTo str (jsSub (some (L : Int)) (plen : Int))))) =
        String.mk (str.data.take m)
      ∧ (str.data.take m).length = m
      ∧ (m = 0 ∨ (str.data.get? m = some ' ' ∧ m + plen ≤ L)) := by
  have hmnat : ((L : Int) - (plen : Int)).toNat = L - plen := by omega
  have hpref : jsSubstrTo str (jsSub (some (L : Int)) (plen : Int)) =
      String.mk (str.data.take (L - plen)) := by
    simp [jsSubstrTo, jsSub, hmnat]
  rw [hpref]
  cases hls : lastSpaceIdx (str.data.take (L - plen)) with
  | none =>
    refine ⟨0, ?_, by simp, Or.inl rfl⟩
    simp [lastIndexOfSpace, hls, jsSubstrTo]
  | some k =>
    have hspec := lastSpaceIdx_spec _ _ hls
    have hk1 : k < L - plen := by
      have := hspec.1
      rw [List.length_take] at this
      omega
    have hk2 : (str.data.take (L - plen)).get? k = some ' ' := hspec.2
    have hkstr : str.data.get? k = some ' ' := by
      rw [List.get?_take hk1] at hk2
      exact hk2
    refine ⟨k, ?_, ?_, Or.inr ⟨hkstr, by omega⟩⟩
    · simp [lastIndexOfSpace, hls, jsSubstrTo]
    · rw [List.length_take]
      have : k < str.data.length := by
        rw [strLength_data] at hlen
        omega
      omega

/-- Unfolding of the autonomous element's `truncateAfterWord` when a
valid positive limit is supplied and the text is at least that long. -/
theorem elem_truncate_unfold (str c : String) (L : Nat)
    (h : toNumberLit c = some (L : Int)) (h1 : 1 ≤ L) (h2 : L ≤ str.length) :
    Elem.truncateAfterWord str (some c) =
      jsSubstrTo str
          (some (lastIndexOfSpace (jsSubstrTo str (jsSub (some (L : Int)) (3 : Int))))) ++
        "..." := by
  have hc : c ≠ "" := by
    intro hc
    rw [hc, toNumberLit_empty] at h
    have : (0 : Int) = (L : Int) := by injection h
    omega
  have hstr : str ≠ "" := by
    intro hstr
    rw [hstr] at h2
    simp [strLength_data] at h2
    omega
  have hguard : ¬ (c = "" ∨ str = "") := by
    intro hor; cases hor with
    | inl hl => exact hc hl
    | inr hr => exact hstr hr
  have hlt : jsLtLen str.length (some (L : Int)) = false := by
    simp [jsLtLen]; omega
  simp [Elem.truncateAfterWord, if_neg hguard, h, hlt, jsSub]

/-- Unfolding of the span element's `truncateAfterWord` when a valid
positive limit is supplied and the text is at least that long. -/
theorem span_truncate_unfold (str c ph : String) (L : Nat)
    (h : toNumberLit c = some (L : Int)) (h1 : 1 ≤ L) (h2 : L ≤ str.length) :
    Span.truncateAfterWord str (some c) ph =
      jsSubstrTo str
          (some (lastIndexOfSpace
            (jsSubstrTo str (jsSub (some (L : Int)) (ph.length : Int))))) ++ ph := by
  have hc : c ≠ "" := by
    intro hc
    rw [hc, toNumberLit_empty] at h
    have : (0 : Int) = (L : Int) := by injection h
    omega
  have hlt : jsLtLen str.length (some (L : Int)) = false := by
    simp [jsLtLen]; omega
  simp [Span.truncateAfterWord, if_neg hc, h, hlt, jsSub]

/-! ### Claims about `truncateAfterWord` -/

/-- Claim C3, counterexample: the claim says a missing or *invalid*
limit is treated as "no limit" (identity truncation), but a non-numeric
nonempty limit string (`NaN` after `ToNumber`) takes the truncating
branch with a `NaN` cut position and returns the bare placeholder, not
the text unchanged. -/
theorem claim3_invalid_limit_cex :
    Elem.truncateAfterWord "hello" (some "abc") ≠ "hello" ∧
      Span.truncateAfterWord "hello" (some "abc") "…" ≠ "hello" := by decide

/-- Claim C3, amended: both variants return the text unchanged when the
limit is `null` (`none`) or the empty string, and when the limit parses
to a number `L` with `text.length < L`; a nonempty *non-numeric* limit
is not treated as "no limit" — it yields the bare placeholder (shown
here on the concrete input `"hello"` with limit `"abc"`). -/
theorem claim3_identity_cases :
    ∀ (str ph : String),
      Elem.truncateAfterWord str none = str ∧
      Span.truncateAfterWord str none ph = str ∧
      Elem.truncateAfterWord str (some "") = str ∧
      Span.truncateAfterWord str (some "") ph = str ∧
      (∀ (c : String) (L : Int), toNumberLit c = some L → (str.length : Int) < L →
        Elem.truncateAfterWord str (some c) = str ∧
        Span.truncateAfterWord str (some c) ph = str) ∧
      Elem.truncateAfterWord "hello" (some "abc") = "..." ∧
      Span.truncateAfterWord "hello" (some "abc") "…" = "…" := by
  intro str ph
  refine ⟨rfl, rfl, by simp [Elem.truncateAfterWord], by simp [Span.truncateAfterWord],
    ?_, by decide, by decide⟩
  intro c L h hlt
  have hjs : jsLtLen str.length (toNumberLit c) = true := by
    rw [h]; simpa [jsLtLen] using hlt
  constructor
  · by_cases hg : c = "" ∨ str = ""
    · simp [Elem.truncateAfterWord, if_pos hg]
    · simp [Elem.truncateAfterWord, if_neg hg, hjs]
  · by_cases hg : c = ""
    · simp [Span.truncateAfterWord, hg]
    · simp [Span.truncateAfterWord, if_neg hg, hjs]

theorem claim3_identity_cases_wit :
    Elem.truncateAfterWord "hello world" (some "100") = "hello world" ∧
      Span.truncateAfterWord "hello world" (some "100") "…" = "hello world" :=
  (claim3_identity_cases "hello world" "…").2.2.2.2.1 "100" 100 (by decide) (by decide)

/-- Claim C10 (implicit behavior), confirmed: when truncation occurs and
the examined prefix (of length `limit` minus the placeholder length:
3 for the autonomous element's `"..."`, 1 for the span element's `"…"`)
contains no space, `lastIndexOf(" ")` yields `-1`, the kept prefix is
empty, and the result is the placeholder alone. -/
theorem claim10_placeholder_alone :
    ∀ (str c : String) (L : Nat), toNumberLit c = some (L : Int) →
      1 ≤ L → L ≤ str.length →
      (' ' ∉ str.data.take (L - 3) → Elem.truncateAfterWord str (some c) = "...") ∧
      (' ' ∉ str.data.take (L - 1) → Span.truncateAfterWord str (some c) "…" = "…") := by
  intro str c L h h1 h2
  constructor
  · intro hsp
    rw [elem_truncate_unfold str c L h h1 h2]
    have hmnat : ((L : Int) - (3 : Int)).toNat = L - 3 := by omega
    have hnone : lastSpaceIdx (str.data.take (L - 3)) = none :=
      (lastSpaceIdx_eq_none _).mpr hsp
    simp [jsSub, jsSubstrTo, hmnat, lastIndexOfSpace, hnone, mk_nil_append]
  · intro hsp
    rw [span_truncate_unfold str c "…" L h h1 h2]
    have hmnat : ((L : Int) - ((1 : Nat) : Int)).toNat = L - 1 := by omega
    have hnone : lastSpaceIdx (str.data.take (L - 1)) = none :=
      (lastSpaceIdx_eq_none _).mpr hsp
    have hph : (("…" : String).length : Int) = ((1 : Nat) : Int) := by decide
    simp [jsSub, jsSubstrTo, hph, hmnat, lastIndexOfSpace, hnone, mk_nil_append]

theorem claim10_placeholder_alone_wit :
    Elem.truncateAfterWord "internationalization" (some "10") = "..." ∧
      Span.truncateAfterWord "internationalization" (some "10") "…" = "…" :=
  ⟨(claim10_placeholder_alone "internationalization" "10" 10 (by decide) (by decide)
      (by decide)).1 (by decide),
    (claim10_placeholder_alone "internationalization" "10" 10 (by decide) (by decide)
      (by decide)).2 (by decide)⟩

/-- Claim C2, counterexample: for limit `L = 1` (and any text of length
`≥ 1`), the autonomous element still appends its hard-coded
three-character `"..."`, so the result has length `3 > L`; the claimed
bound `len(truncate(text, L)) ≤ L` fails. -/
theorem claim2_length_bound_cex :
    ¬ (Elem.truncateAfterWord "ab" (some "1")).length ≤ 1 := by decide

/-- Claim C2, amended: for a valid positive limit `L` with
`text.length ≥ L`, the result ends in the placeholder, has total length
`≤ L`, and its length excluding the placeholder is `< L` — for the span
variant (one-character placeholder `"…"`) for every `L ≥ 1`, and for the
autonomous variant (three-character placeholder `"..."`) only for
`L ≥ 3`: for `L ∈ {1, 2}` the autonomous variant returns `"..."`, of
length `3 > L`. -/
theorem strLength_append (a b : String) : (a ++ b).length = a.length + b.length := by
  rw [strLength_data, strData_append, List.length_append]; rfl

theorem claim2_length_bounds :
    ∀ (str c : String) (L : Nat), toNumberLit c = some (L : Int) →
      1 ≤ L → L ≤ str.length →
      (∃ pre, Span.truncateAfterWord str (some c) "…" = pre ++ "…" ∧
        (pre ++ "…").length ≤ L ∧ pre.length < L) ∧
      (3 ≤ L →
        ∃ pre, Elem.truncateAfterWord str (some c) = pre ++ "..." ∧
          (pre ++ "...").length ≤ L ∧ pre.length < L) := by
  intro str c L h h1 h2
  have hdots : ("…" : String).length = 1 := rfl
  have hdots3 : ("..." : String).length = 3 := rfl
  constructor
  · rw [span_truncate_unfold str c "…" L h h1 h2]
    have hph : (("…" : String).length : Int) = ((1 : Nat) : Int) := by decide
    rw [hph]
    obtain ⟨m, heq, hlen, hcase⟩ := trunc_core_shape str L 1 h2
    have hpre : (String.mk (str.data.take m)).length = m := hlen
    refine ⟨String.mk (str.data.take m), by rw [heq], ?_, ?_⟩
    · rw [strLength_append, hpre, hdots]
      rcases hcase with h0 | ⟨_, hm⟩
      · omega
      · omega
    · rw [hpre]
      rcases hcase with h0 | ⟨_, hm⟩
      · omega
      · omega
  · intro h3
    rw [elem_truncate_unfold str c L h h1 h2]
    have hph : ((3 : Int)) = (((3 : Nat)) : Int) := by decide
    rw [hph]
    obtain ⟨m, heq, hlen, hcase⟩ := trunc_core_shape str L 3 h2
    have hpre : (String.mk (str.data.take m)).length = m := hlen
    refine ⟨String.mk (str.data.take m), by rw [heq], ?_, ?_⟩
    · rw [strLength_append, hpre, hdots3]
      rcases hcase with h0 | ⟨_, hm⟩
      · omega
      · omega
    · rw [hpre]
      rcases hcase with h0 | ⟨_, hm⟩
      · omega
      · omega

theorem claim2_length_bounds_wit :
    (∃ pre, Span.truncateAfterWord "hello brave world" (some "12") "…" = pre ++ "…" ∧
      (pre ++ "…").length ≤ 12 ∧ pre.length < 12) ∧
    (3 ≤ 12 →
      ∃ pre, Elem.truncateAfterWord "hello brave world" (some "12") = pre ++ "..." ∧
        (pre ++ "...").length ≤ 12 ∧ pre.length < 12) :=
  claim2_length_bounds "hello brave world" "12" 12 (by decide) (by decide) (by decide)

/-- Claim C8, confirmed: whenever truncation occurs (valid positive
limit, text at least that long), both variants return a prefix of the
text followed by the placeholder, and the prefix is either empty or cut
exactly at a position holding a space of the original text — a word is
never split. -/
theorem claim8_cut_on_space :
    ∀ (str c : String) (L : Nat), toNumberLit c = some (L : Int) →
      1 ≤ L → L ≤ str.length →
      (∃ m, Elem.truncateAfterWord str (some c) = String.mk (str.data.take m) ++ "..." ∧
        (m = 0 ∨ str.data.get? m = some ' ')) ∧
      (∃ m, Span.truncateAfterWord str (some c) "…" = String.mk (str.data.take m) ++ "…" ∧
        (m = 0 ∨ str.data.get? m = some ' ')) := by
  intro str c L h h1 h2
  constructor
  · rw [elem_truncate_unfold str c L h h1 h2]
    have hph : ((3 : Int)) = (((3 : Nat)) : Int) := by decide
    rw [hph]
    obtain ⟨m, heq, _, hcase⟩ := trunc_core_shape str L 3 h2
    refine ⟨m, by rw [heq], ?_⟩
    rcases hcase with h0 | ⟨hsp, _⟩
    · exact Or.inl h0
    · exact Or.inr hsp
  · rw [span_truncate_unfold str c "…" L h h1 h2]
    have hph : (("…" : String).length : Int) = ((1 : Nat) : Int) := by decide
    rw [hph]
    obtain ⟨m, heq, _, hcase⟩ := trunc_core_shape str L 1 h2
    refine ⟨m, by rw [heq], ?_⟩
    rcases hcase with h0 | ⟨hsp, _⟩
    · exact Or.inl h0
    · exact Or.inr hsp

theorem claim8_cut_on_space_wit :
    (∃ m, Elem.truncateAfterWord "hello brave world" (some "12") =
      String.mk (("hello brave world" : String).data.take m) ++ "..." ∧
      (m = 0 ∨ ("hello brave world" : String).data.get? m = some ' ')) ∧
    (∃ m, Span.truncateAfterWord "hello brave world" (some "12") "…" =
      String.mk (("hello brave world" : String).data.take m) ++ "…" ∧
      (m = 0 ∨ ("hello brave world" : String).data.get? m = some ' ')) :=
  claim8_cut_on_space "hello brave world" "12" 12 (by decide) (by decide) (by decide)



/-! ### Character-level facts -/

theorem char_toNat_ofNat_valid (n : Nat) (h : n < 55296) : (Char.ofNat n).toNat = n := by
  rw [Char.ofNat, dif_pos (Or.inl h)]
  rfl

theorem nonword_toLower_self (c : Char) (h : isWordChar c = false) : c.toLower = c := by
  by_cases hP : 65 ≤ c.toNat ∧ c.toNat ≤ 90
  · exfalso
    simp [isWordChar, hP.1, hP.2] at h
  · simp only [Char.toLower]
    rw [if_neg (by omega)]

theorem nonword_toUpper_self (c : Char) (h : isWordChar c = false) : c.toUpper = c := by
  by_cases hP : 97 ≤ c.toNat ∧ c.toNat ≤ 122
  · exfalso
    simp [isWordChar, hP.1, hP.2] at h
  · simp only [Char.toUpper]
    rw [if_neg (by omega)]

theorem toLower_toNat_of_upper (c : Char) (hP : 65 ≤ c.toNat ∧ c.toNat ≤ 90) :
    (Char.toLower c).toNat = c.toNat + 32 := by
  simp only [Char.toLower]
  rw [if_pos (by omega)]
  exact char_toNat_ofNat_valid _ (by omega)

theorem isWordChar_toLower (c : Char) : isWordChar c.toLower = isWordChar c := by
  by_cases hP : 65 ≤ c.toNat ∧ c.toNat ≤ 90
  · have hl : (Char.toLower c).toNat = c.toNat + 32 := toLower_toNat_of_upper c hP
    have h1 : isWordChar c.toLower = true := by
      simp only [isWordChar, Bool.or_eq_true, Bool.and_eq_true, decide_eq_true_eq]
      exact Or.inl (Or.inl (Or.inr ⟨by omega, by omega⟩))
    have h2 : isWordChar c = true := by
      simp only [isWordChar, Bool.or_eq_true, Bool.and_eq_true, decide_eq_true_eq]
      exact Or.inl (Or.inl (Or.inl ⟨by omega, by omega⟩))
    rw [h1, h2]
  · have : c.toLower = c := by
      simp only [Char.toLower]
      rw [if_neg (by omega)]
    rw [this]

theorem ws_not_wordChar (c : Char) (h : c.isWhitespace = true) : isWordChar c = false := by
  simp only [Char.isWhitespace, Bool.or_eq_true, decide_eq_true_eq] at h
  rcases h with ((h | h) | h) | h <;> subst h <;> decide

theorem splitPunct_not_wordChar (c : Char) (h : Span.isSplitPunct c = true) :
    isWordChar c = false := by
  simp only [Span.isSplitPunct, Bool.or_eq_true, decide_eq_true_eq] at h
  rcases h with ((((((((((h | h) | h) | h) | h) | h) | h) | h) | h) | h) | h) <;>
    subst h <;> decide

/-! ### `Forall₂` plumbing -/

theorem forall2_app {R : Char → Char → Prop} :
    ∀ {l₁ l₂ u₁ u₂ : List Char}, List.Forall₂ R l₁ l₂ → List.Forall₂ R u₁ u₂ →
      List.Forall₂ R (l₁ ++ u₁) (l₂ ++ u₂) := by
  intro l₁ l₂ u₁ u₂ h₁ h₂
  induction h₁ with
  | nil => exact h₂
  | cons hr _ ih => exact List.Forall₂.cons hr ih

theorem forall2_get? {R : Char → Char → Prop} :
    ∀ {l₁ l₂ : List Char}, List.Forall₂ R l₁ l₂ →
      ∀ (i : Nat) (a : Char), l₁.get? i = some a →
        ∃ b, l₂.get? i = some b ∧ R a b := by
  intro l₁ l₂ h
  induction h with
  | nil => intro i a ha; simp at ha
  | cons hr htl ih =>
    intro i a ha
    cases i with
    | zero =>
      simp at ha
      subst ha
      exact ⟨_, by simp, hr⟩
    | succ j =>
      simp only [List.get?_cons_succ] at ha ⊢
      exact ih j a ha

/-! ### Pointwise structure of the autonomous element's title caser -/

theorem forall2_or_upper_refl (l : List Char) :
    List.Forall₂ (fun a b => b = a ∨ b = a.toUpper) l l := by
  induction l with
  | nil => exact List.Forall₂.nil
  | cons c t ih => exact List.Forall₂.cons (Or.inl rfl) ih

theorem capFirst_forall2 (w : List Char) :
    List.Forall₂ (fun a b => b = a ∨ b = a.toUpper) w (capFirst w) := by
  cases w with
  | nil => exact List.Forall₂.nil
  | cons c cs => exact List.Forall₂.cons (Or.inr rfl) (forall2_or_upper_refl cs)

theorem wordReplace_forall2 (L st : Nat) (w : List Char) :
    List.Forall₂ (fun a b => b = a ∨ b = a.toUpper) w (Elem.wordReplace L st w) := by
  unfold Elem.wordReplace
  split
  · exact capFirst_forall2 w
  · split
    · exact forall2_or_upper_refl w
    · exact capFirst_forall2 w

theorem go_forall2 (L : Nat) :
    ∀ (cs : List Char) (i : Nat) (acc : List Char),
      List.Forall₂ (fun a b => b = a ∨ b = a.toUpper) (acc ++ cs) (Elem.go L cs i acc) := by
  intro cs
  induction cs with
  | nil =>
    intro i acc
    by_cases hacc : acc = []
    · subst hacc
      simp only [Elem.go, List.isEmpty_nil, List.append_nil, if_true]
      exact List.Forall₂.nil
    · have he : acc.isEmpty = false := by simp [hacc]
      simp only [Elem.go, he, List.append_nil, Bool.false_eq_true, if_false]
      exact wordReplace_forall2 L (i - acc.length) acc
  | cons c cs ih =>
    intro i acc
    simp only [Elem.go]
    by_cases hw : isWordChar c
    · rw [if_pos hw]
      have h := ih (i + 1) (acc ++ [c])
      rw [List.append_assoc] at h
      simpa using h
    · rw [if_neg hw]
      have h2 : List.Forall₂ (fun a b => b = a ∨ b = a.toUpper)
          (c :: cs) (c :: Elem.go L cs (i + 1) []) :=
        List.Forall₂.cons (Or.inl rfl) (by simpa using ih (i + 1) [])
      by_cases hacc : acc = []
      · subst hacc
        simpa using h2
      · have he : acc.isEmpty = false := by simp [hacc]
        simp only [he, Bool.false_eq_true, if_false]
        exact forall2_app (wordReplace_forall2 L (i - acc.length) acc) h2

/-- Every character of the autonomous element's title-cased output is
either the lowercased form of the corresponding input character or its
uppercased-lowercased form; in particular lengths agree. -/
theorem elem_apStyle_forall2 (s : String) :
    List.Forall₂ (fun a b => b = a.toLower ∨ b = a.toLower.toUpper) s.data
      (Elem.apStyleTitleCase s).data := by
  by_cases hs : s = ""
  · subst hs
    exact List.Forall₂.nil
  · unfold Elem.apStyleTitleCase
    rw [if_neg hs]
    have h := go_forall2 s.length ((jsToLower s).data) 0 []
    simp only [List.nil_append] at h
    have hmap : (jsToLower s).data = s.data.map Char.toLower := rfl
    rw [hmap] at h
    exact List.forall₂_map_left_iff.mp h

/-! ### Pointwise structure of the span element's title caser -/

theorem concatAll_cons (t : String) (ts : List String) :
    Span.concatAll (t :: ts) = t ++ Span.concatAll ts := rfl

theorem splitGo_join :
    ∀ (cs acc : List Char) (b : Bool),
      (Span.concatAll (Span.splitGo cs acc b)).data = acc.reverse ++ cs := by
  intro cs
  induction cs with
  | nil =>
    intro acc b
    cases b <;> simp [Span.splitGo, Span.concatAll, strData_append]
  | cons c cs ih =>
    intro acc b
    cases b with
    | false =>
      simp only [Span.splitGo]
      by_cases hp : Span.isSplitPunct c
      · rw [if_pos hp, concatAll_cons, concatAll_cons, strData_append, strData_append,
          ih [] false]
        simp
      · rw [if_neg hp]
        by_cases hw : c.isWhitespace
        · rw [if_pos hw, concatAll_cons, strData_append, ih [c] true]
          simp
        · rw [if_neg hw, ih (c :: acc) false]
          simp
    | true =>
      simp only [Span.splitGo]
      by_cases hw : c.isWhitespace
      · rw [if_pos hw, ih (c :: acc) true]
        simp
      · rw [if_neg hw]
        by_cases hp : Span.isSplitPunct c
        · rw [if_pos hp, concatAll_cons, concatAll_cons, concatAll_cons, strData_append,
            strData_append, strData_append, ih [] false]
          simp
        · rw [if_neg hp, concatAll_cons, strData_append, ih [c] false]
          simp

theorem forall2_keep_refl (l : List Char) :
    List.Forall₂ (fun a b => b = a ∨ b = a.toUpper ∨ b = a.toLower) l l := by
  induction l with
  | nil => exact List.Forall₂.nil
  | cons c t ih => exact List.Forall₂.cons (Or.inl rfl) ih

theorem forall2_toLower_self (l : List Char) :
    List.Forall₂ (fun a b => b = a ∨ b = a.toUpper ∨ b = a.toLower)
      l (l.map Char.toLower) := by
  induction l with
  | nil => exact List.Forall₂.nil
  | cons c t ih => exact List.Forall₂.cons (Or.inr (Or.inr rfl)) ih

theorem mapTok_forall2 (n i : Nat) (w : String) :
    List.Forall₂ (fun a b => b = a ∨ b = a.toUpper ∨ b = a.toLower)
      w.data (Span.mapTok n i w).data := by
  unfold Span.mapTok
  split
  · exact forall2_keep_refl w.data
  · split
    · exact forall2_toLower_self w.data
    · show List.Forall₂ _ w.data (capFirst w.data)
      cases hd : w.data with
      | nil => exact List.Forall₂.nil
      | cons c cs => exact List.Forall₂.cons (Or.inr (Or.inl rfl)) (forall2_keep_refl cs)

theorem concat_enumFrom_forall2 (n : Nat) :
    ∀ (ts : List String) (k : Nat),
      List.Forall₂ (fun a b => b = a ∨ b = a.toUpper ∨ b = a.toLower)
        (Span.concatAll ts).data
        (Span.concatAll ((List.enumFrom k ts).map
          (fun p => Span.mapTok n p.1 p.2))).data := by
  intro ts
  induction ts with
  | nil => intro k; exact List.Forall₂.nil
  | cons t ts ih =>
    intro k
    show List.Forall₂ _ (Span.concatAll (t :: ts)).data
      (Span.concatAll (Span.mapTok n k t :: (List.enumFrom (k + 1) ts).map
        (fun p => Span.mapTok n p.1 p.2))).data
    rw [concatAll_cons, concatAll_cons, strData_append, strData_append]
    exact forall2_app (mapTok_forall2 n k t) (ih (k + 1))

/-- Every character of the span element's title-cased output is the
corresponding input character, its uppercased form, or its lowercased
form; in particular lengths agree. -/
theorem span_apStyle_forall2 (s : String) :
    List.Forall₂ (fun a b => b = a ∨ b = a.toUpper ∨ b = a.toLower) s.data
      (Span.apStyleTitleCase s).data := by
  by_cases hs : s = ""
  · subst hs
    exact List.Forall₂.nil
  · unfold Span.apStyleTitleCase
    rw [if_neg hs]
    have hj : (Span.concatAll (Span.jsSplit s)).data = s.data := by
      have := splitGo_join s.data [] false
      simpa [Span.jsSplit] using this
    have h := concat_enumFrom_forall2 (Span.jsSplit s).length (Span.jsSplit s) 0
    rw [hj] at h
    exact h

/-! ### Claims about separator and suffix preservation -/

/-- Claim C7, confirmed: both title casers keep the output the same
length as the input (no characters inserted or removed), and every
whitespace character and every character of the punctuation boundary set
`{-, ‑, –, —, ,, :, ;, !, ?, (, )}` is reproduced verbatim at its
original position.  In the span variant separators sit at odd indices of
the split array and its token map returns every odd-index token
unchanged, so separators never take part in the first/last-word rule. -/
theorem claim7_separators_preserved :
    ∀ (s : String),
      (Elem.apStyleTitleCase s).length = s.length ∧
      (Span.apStyleTitleCase s).length = s.length ∧
      (∀ (i : Nat) (c : Char), s.data.get? i = some c →
        (c.isWhitespace || Span.isSplitPunct c) = true →
        (Elem.apStyleTitleCase s).data.get? i = some c ∧
        (Span.apStyleTitleCase s).data.get? i = some c) ∧
      (∀ (n i : Nat) (w : String), i % 2 = 1 → Span.mapTok n i w = w) := by
  intro s
  have he := elem_apStyle_forall2 s
  have hsp := span_apStyle_forall2 s
  refine ⟨?_, ?_, ?_, ?_⟩
  · rw [strLength_data, strLength_data]
    exact he.length_eq.symm
  · rw [strLength_data, strLength_data]
    exact hsp.length_eq.symm
  · intro i c hc hsep
    have hword : isWordChar c = false := by
      rcases Bool.or_eq_true_iff.mp hsep with h | h
      · exact ws_not_wordChar c h
      · exact splitPunct_not_wordChar c h
    have hlow : c.toLower = c := nonword_toLower_self c hword
    have hup : c.toUpper = c := nonword_toUpper_self c hword
    constructor
    · obtain ⟨b, hb, hrel⟩ := forall2_get? he i c hc
      rcases hrel with h | h
      · rw [hb, h, hlow]
      · rw [hb, h, hlow, hup]
    · obtain ⟨b, hb, hrel⟩ := forall2_get? hsp i c hc
      rcases hrel with h | h | h
      · rw [hb, h]
      · rw [hb, h, hup]
      · rw [hb, h, hlow]
  · intro n i w h
    simp [Span.mapTok, h]

theorem claim7_separators_preserved_wit :
    (Elem.apStyleTitleCase "a-b c").data.get? 1 = some '-' ∧
      (Span.apStyleTitleCase "a-b c").data.get? 1 = some '-' :=
  (claim7_separators_preserved "a-b c").2.2.1 1 '-' (by decide) (by decide)

/-- Claim C6, counterexample: on input `"NASA"` the (only, hence
capitalized) word does *not* keep its characters after the first as in
the input: the autonomous element lowercases the whole string first, so
the output is `"Nasa"`, whose tail `"asa"` differs from the input tail
`"ASA"`. -/
theorem claim6_tail_cex :
    (Elem.apStyleTitleCase "NASA").data.drop 1 ≠ ("NASA" : String).data.drop 1 := by decide

/-- Claim C6, amended: in the *span* variant every capitalized word
keeps all characters after the first exactly as in the input
(`capitalize` only uppercases the first character, and the token map
only ever returns a token unchanged, fully lowercased, or capitalized);
in the *autonomous* variant the whole string is lowercased before the
word scan, so each output character is merely the lowercased form of the
input character or its uppercased-lowercased form — the original
characters after a word's first letter are not preserved. -/
theorem claim6_tail_preserved :
    (∀ w : String, (Span.capitalize w).data.drop 1 = w.data.drop 1) ∧
    (∀ n i : Nat, ∀ w : String, Span.mapTok n i w = w ∨ Span.mapTok n i w = jsToLower w ∨
      Span.mapTok n i w = Span.capitalize w) ∧
    (∀ L st : Nat, ∀ w : List Char,
      Elem.wordReplace L st w = w ∨ Elem.wordReplace L st w = capFirst w) ∧
    (∀ w : List Char, (capFirst w).drop 1 = w.drop 1) ∧
    (∀ s : String, List.Forall₂ (fun a b => b = a.toLower ∨ b = a.toLower.toUpper)
      s.data (Elem.apStyleTitleCase s).data) := by
  refine ⟨?_, ?_, ?_, ?_, elem_apStyle_forall2⟩
  · intro w
    show (capFirst w.data).drop 1 = w.data.drop 1
    cases w.data with
    | nil => rfl
    | cons c cs => rfl
  · intro n i w
    unfold Span.mapTok
    split
    · exact Or.inl rfl
    · split
      · exact Or.inr (Or.inl rfl)
      · exact Or.inr (Or.inr rfl)
  · intro L st w
    unfold Elem.wordReplace
    split
    · exact Or.inr rfl
    · split
      · exact Or.inl rfl
      · exact Or.inr rfl
  · intro w
    cases w with
    | nil => rfl
    | cons c cs => rfl

/-! ### Claims about the word-casing rules -/

/-- Claim C5, counterexample: `"he"` is an interior word that is *not*
in the stop-word set, yet the span variant leaves it lowercase, because
its stop-word test is substring containment in the string
`'a an and at but by for in nor of on or so the to up yet'` (which
contains `"he"` inside `"the"`). -/
theorem claim5_interior_cex :
    Span.apStyleTitleCase "watch he go" ≠ "Watch He Go" := by decide

/-- Claim C5, amended: interior stop-words are fully lowercased and
other interior words are capitalized, with this proviso: the autonomous
element tests exact membership of the word in the stop-word array, while
the span variant tests *substring containment* of the lowercased word in
the space-separated stop-word string, so interior words that merely
occur inside that string (such as `"he"`) are also lowercased.  Both
variants map `"the lord of the rings"` to `"The Lord of the Rings"` and
`"a tale of two cities"` to `"A Tale of Two Cities"`; the span variant
maps `"watch he go"` to `"Watch he Go"` while the autonomous one gives
`"Watch He Go"`. -/
theorem claim5_interior_words :
    Elem.apStyleTitleCase "the lord of the rings" = "The Lord of the Rings" ∧
    Span.apStyleTitleCase "the lord of the rings" = "The Lord of the Rings" ∧
    Elem.apStyleTitleCase "a tale of two cities" = "A Tale of Two Cities" ∧
    Span.apStyleTitleCase "a tale of two cities" = "A Tale of Two Cities" ∧
    (∀ L st : Nat, ∀ w : List Char, st ≠ 0 → st + w.length ≠ L →
      (Elem.lowercaseWords.contains (String.mk w) = true → Elem.wordReplace L st w = w) ∧
      (Elem.lowercaseWords.contains (String.mk w) = false →
        Elem.wordReplace L st w = capFirst w)) ∧
    (∀ n i : Nat, ∀ w : String, i % 2 = 0 → i ≠ 0 → i ≠ n - 1 →
      (Span.strIncludes Span.smallwords (jsToLower w) = true →
        Span.mapTok n i w = jsToLower w) ∧
      (Span.strIncludes Span.smallwords (jsToLower w) = false →
        Span.mapTok n i w = Span.capitalize w)) ∧
    (Span.strIncludes Span.smallwords "he" = true ∧
      Elem.lowercaseWords.contains "he" = false) ∧
    Span.apStyleTitleCase "watch he go" = "Watch he Go" ∧
    Elem.apStyleTitleCase "watch he go" = "Watch He Go" := by
  refine ⟨by decide, by decide, by decide, by decide, ?_, ?_, by decide, by decide, by decide⟩
  · intro L st w h0 hL
    have hfl : ¬ (st = 0 ∨ st + w.length = L) := by
      intro h; cases h with
      | inl h => exact h0 h
      | inr h => exact hL h
    unfold Elem.wordReplace
    rw [if_neg hfl]
    constructor
    · intro hc
      rw [if_pos hc]
    · intro hc
      have hnc : ¬ (Elem.lowercaseWords.contains (String.mk w) = true) := by
        rw [hc]; exact Bool.false_ne_true
      rw [if_neg hnc]
  · intro n i w h2 h0 hn
    have hmod : ¬ (i % 2 = 1) := by omega
    unfold Span.mapTok
    rw [if_neg hmod]
    constructor
    · intro hc
      rw [if_pos ⟨h0, hn, hc⟩]
    · intro hc
      have hnc : ¬ (i ≠ 0 ∧ i ≠ n - 1 ∧
          Span.strIncludes Span.smallwords (jsToLower w) = true) := by
        intro hand
        rw [hc] at hand
        exact Bool.false_ne_true hand.2.2
      rw [if_neg hnc]

theorem claim5_interior_words_wit :
    Elem.wordReplace 21 10 ("of" : String).data = ("of" : String).data ∧
      Span.mapTok 5 2 "he" = jsToLower "he" :=
  ⟨(claim5_interior_words.2.2.2.2.1 21 10 ("of" : String).data (by decide) (by decide)).1
      (by decide),
    (claim5_interior_words.2.2.2.2.2.1 5 2 "he" (by decide) (by decide) (by decide)).1
      (by decide)⟩

/-! ### First and last word of the autonomous element's title caser -/

theorem takeWhile_append_bad (p : Char → Bool) :
    ∀ (as : List Char) (c : Char) (bs : List Char), p c = false →
      (as ++ c :: bs).takeWhile p = as.takeWhile p := by
  intro as
  induction as with
  | nil =>
    intro c bs hc
    simp [List.takeWhile, hc]
  | cons a as ih =>
    intro c bs hc
    rw [List.cons_append, List.takeWhile_cons, List.takeWhile_cons, ih c bs hc]

theorem trailing_skip (p : Char → Bool) (xs : List Char) (c : Char) (ys : List Char)
    (hc : p c = false) :
    ((xs ++ c :: ys).reverse.takeWhile p).reverse = (ys.reverse.takeWhile p).reverse := by
  have : (xs ++ c :: ys).reverse = ys.reverse ++ c :: xs.reverse := by simp
  rw [this, takeWhile_append_bad p ys.reverse c xs.reverse hc]

theorem trailing_all (p : Char → Bool) (l : List Char) (h : ∀ a ∈ l, p a = true) :
    ((l.reverse.takeWhile p).reverse) = l := by
  have : l.reverse.takeWhile p = l.reverse := by
    rw [List.takeWhile_eq_self_iff]
    intro x hx
    exact h x (List.mem_reverse.mp hx)
  rw [this, List.reverse_reverse]

/-- While the scanner is inside the very first word of the string
(`i = acc.length`, i.e. the match started at offset `0`), the first
output character is the uppercased head of that word. -/
theorem go_head (L : Nat) :
    ∀ (cs : List Char) (i : Nat) (c0 : Char) (accr : List Char),
      i = (c0 :: accr).length →
      (Elem.go L cs i (c0 :: accr)).head? = some c0.toUpper := by
  intro cs
  induction cs with
  | nil =>
    intro i c0 accr hi
    have hi0 : i - (c0 :: accr).length = 0 := by omega
    simp only [Elem.go, List.isEmpty_cons, Bool.false_eq_true, if_false]
    rw [hi0]
    unfold Elem.wordReplace
    rw [if_pos (Or.inl rfl)]
    rfl
  | cons c cs ih =>
    intro i c0 accr hi
    simp only [Elem.go]
    by_cases hw : isWordChar c
    · rw [if_pos hw]
      have h := ih (i + 1) c0 (accr ++ [c]) (by simp at hi ⊢; omega)
      simpa using h
    · rw [if_neg hw]
      have hi0 : i - (c0 :: accr).length = 0 := by omega
      simp only [List.isEmpty_cons, Bool.false_eq_true, if_false]
      rw [hi0]
      unfold Elem.wordReplace
      rw [if_pos (Or.inl rfl)]
      rfl

/-- When the input ends inside a word (its final character is a word
character), the output of the scan ends with the capitalized trailing
word run. -/
theorem go_last (L : Nat) :
    ∀ (cs : List Char) (i : Nat) (acc : List Char),
      i + cs.length = L → acc.length ≤ i →
      (∀ a ∈ acc, isWordChar a = true) →
      acc ++ cs ≠ [] →
      (cs = [] ∨ ∃ g, cs.getLast? = some g ∧ isWordChar g = true) →
      ∃ pre, Elem.go L cs i acc =
        pre ++ capFirst (((acc ++ cs).reverse.takeWhile isWordChar).reverse) := by
  intro cs
  induction cs with
  | nil =>
    intro i acc hiL hacci haccw hne _
    have hiL' : i = L := by simpa using hiL
    have hacc : acc ≠ [] := by simpa using hne
    have he : acc.isEmpty = false := by simp [hacc]
    simp only [Elem.go, he, Bool.false_eq_true, if_false, List.append_nil]
    refine ⟨[], ?_⟩
    rw [trailing_all isWordChar acc haccw, List.nil_append]
    unfold Elem.wordReplace
    rw [if_pos (Or.inr (by omega))]
  | cons c cs ih =>
    intro i acc hiL hacci haccw hne hlast
    have hlast' : ∃ g, (c :: cs).getLast? = some g ∧ isWordChar g = true := by
      rcases hlast with h | h
      · cases h
      · exact h
    obtain ⟨g, hg, hgw⟩ := hlast'
    have hlen : i + (cs.length + 1) = L := by simpa using hiL
    simp only [Elem.go]
    by_cases hw : isWordChar c
    · rw [if_pos hw]
      have hlast2 : cs = [] ∨ ∃ g, cs.getLast? = some g ∧ isWordChar g = true := by
        by_cases hcs : cs = []
        · exact Or.inl hcs
        · refine Or.inr ⟨g, ?_, hgw⟩
          rw [← hg]
          symm
          simpa using List.getLast?_append_of_ne_nil [c] hcs
      obtain ⟨pre, hpre⟩ := ih (i + 1) (acc ++ [c]) (by omega) (by simp; omega)
        (by intro a ha
            rcases List.mem_append.mp ha with h | h
            · exact haccw a h
            · simp at h; subst h; exact hw)
        (by simp) hlast2
      refine ⟨pre, ?_⟩
      have hassoc : acc ++ [c] ++ cs = acc ++ c :: cs := by simp
      rw [← hassoc]
      exact hpre
    · have hcs : cs ≠ [] := by
        intro hcs
        subst hcs
        simp at hg
        subst hg
        rw [hgw] at hw
        exact hw rfl
      rw [if_neg hw]
      obtain ⟨pre, hpre⟩ := ih (i + 1) [] (by omega) (by simp)
        (by intro a ha; cases ha) (by simpa using hcs)
        (Or.inr ⟨g, by rw [← hg]; symm; simpa using List.getLast?_append_of_ne_nil [c] hcs, hgw⟩)
      rw [List.nil_append] at hpre
      have htr : ((acc ++ c :: cs).reverse.takeWhile isWordChar).reverse =
          ((cs.reverse.takeWhile isWordChar)).reverse :=
        trailing_skip isWordChar acc c cs (by simpa using hw)
      refine ⟨(if acc.isEmpty then [] else Elem.wordReplace L (i - acc.length) acc) ++
        c :: pre, ?_⟩
      rw [htr, hpre]
      simp

/-- If the input starts with a word character, the autonomous element
capitalizes the first word: the first output character is the uppercased
(lowercased) first input character. -/
theorem elem_first_capitalized (s : String) (c : Char) (rest : List Char)
    (hdata : s.data = c :: rest) (hw : isWordChar c = true) :
    (Elem.apStyleTitleCase s).data.head? = some c.toLower.toUpper := by
  have hs : s ≠ "" := by
    intro h
    rw [h] at hdata
    cases hdata
  unfold Elem.apStyleTitleCase
  rw [if_neg hs]
  show (Elem.go s.length (jsToLower s).data 0 []).head? = _
  have hld : (jsToLower s).data = Char.toLower c :: rest.map Char.toLower := by
    show s.data.map Char.toLower = _
    rw [hdata]
    rfl
  rw [hld]
  have hwl : isWordChar (Char.toLower c) = true := by
    rw [isWordChar_toLower]
    exact hw
  simp only [Elem.go, hwl, if_true, List.nil_append]
  exact go_head s.length (rest.map Char.toLower) 1 (Char.toLower c) [] rfl

/-- If the input ends with a word character, the autonomous element
capitalizes the last word: the output ends with the capitalized trailing
word run of the lowercased input. -/
theorem elem_last_capitalized (s : String) (g : Char)
    (hg : s.data.getLast? = some g) (hgw : isWordChar g = true) :
    ∃ pre, (Elem.apStyleTitleCase s).data =
      pre ++ capFirst (((jsToLower s).data.reverse.takeWhile isWordChar).reverse) := by
  have hsd : s.data ≠ [] := by
    intro h
    rw [h] at hg
    cases hg
  have hs : s ≠ "" := by
    intro h
    rw [h] at hsd
    exact hsd rfl
  unfold Elem.apStyleTitleCase
  rw [if_neg hs]
  have hlen : (0 : Nat) + (jsToLower s).data.length = s.length := by
    show 0 + (s.data.map Char.toLower).length = s.length
    rw [List.length_map, Nat.zero_add]
    rfl
  have hlast : (jsToLower s).data.getLast? = some (Char.toLower g) := by
    show (s.data.map Char.toLower).getLast? = _
    rw [List.getLast?_map, hg]
    rfl
  obtain ⟨pre, hpre⟩ := go_last s.length ((jsToLower s).data) 0 [] hlen (by simp)
    (by intro a ha; cases ha)
    (by
      rw [List.nil_append]
      show (s.data.map Char.toLower) ≠ []
      simp [hsd])
    (Or.inr ⟨Char.toLower g, hlast, by rw [isWordChar_toLower]; exact hgw⟩)
  rw [List.nil_append] at hpre
  exact ⟨pre, hpre⟩

/-! ### First and last token of the span element's title caser -/

theorem splitGo_first :
    ∀ (cs acc : List Char),
      ∃ w ts, Span.splitGo cs acc false = String.mk (acc.reverse ++ w) :: ts := by
  intro cs
  induction cs with
  | nil =>
    intro acc
    exact ⟨[], [], by simp [Span.splitGo]⟩
  | cons c cs ih =>
    intro acc
    simp only [Span.splitGo]
    by_cases hp : Span.isSplitPunct c
    · rw [if_pos hp]
      exact ⟨[], String.mk [c] :: Span.splitGo cs [] false, by simp⟩
    · rw [if_neg hp]
      by_cases hws : c.isWhitespace
      · rw [if_pos hws]
        exact ⟨[], Span.splitGo cs [c] true, by simp⟩
      · rw [if_neg hws]
        obtain ⟨w, ts, hw⟩ := ih (c :: acc)
        refine ⟨c :: w, ts, ?_⟩
        rw [hw]
        simp

theorem isTokChar_of_flags (c : Char) (hp : Span.isSplitPunct c = false)
    (hws : c.isWhitespace = false) : Span.isTokChar c = true := by
  simp [Span.isTokChar, hp, hws]

theorem getLast?_append_single (xs : List Char) (c : Char) :
    (xs ++ [c]).getLast? = some c := List.getLast?_concat xs

theorem getLast?_through (xs : List Char) (c : Char) (ys : List Char) (h : ys ≠ []) :
    (xs ++ c :: ys).getLast? = ys.getLast? := by
  rw [List.getLast?_append_of_ne_nil xs (by simp : (c :: ys) ≠ [])]
  simpa using List.getLast?_append_of_ne_nil [c] h

theorem lastGood_tail {acc : List Char} {c : Char} {cs' : List Char}
    (hex : ∃ g, (acc ++ c :: cs').getLast? = some g ∧ Span.isTokChar g = true)
    (hcbad : Span.isTokChar c = false) :
    cs' ≠ [] ∧ ∃ g, cs'.getLast? = some g ∧ Span.isTokChar g = true := by
  obtain ⟨g, hg, hgood⟩ := hex
  have hne : cs' ≠ [] := by
    intro h
    subst h
    rw [getLast?_append_single] at hg
    injection hg with hg
    rw [hg] at hcbad
    rw [hcbad] at hgood
    exact Bool.false_ne_true hgood
  refine ⟨hne, g, ?_, hgood⟩
  rw [← hg]
  exact (getLast?_through acc c cs' hne).symm

/-- If the scanned text ends in a word character, the split array ends
with the trailing word-token run. -/
theorem splitGo_last_aux :
    ∀ (fuel : Nat) (cs : List Char), cs.length ≤ fuel →
      (∀ acc : List Char, (∀ a ∈ acc, Span.isTokChar a = true) →
        (∃ g, (acc.reverse ++ cs).getLast? = some g ∧ Span.isTokChar g = true) →
        ∃ ts, Span.splitGo cs acc false =
          ts ++ [String.mk (((acc.reverse ++ cs).reverse.takeWhile Span.isTokChar).reverse)]) ∧
      (∀ acc : List Char,
        (∃ g, cs.getLast? = some g ∧ Span.isTokChar g = true) →
        ∃ ts, Span.splitGo cs acc true =
          ts ++ [String.mk ((cs.reverse.takeWhile Span.isTokChar).reverse)]) := by
  have base : ∀ acc : List Char, (∀ a ∈ acc, Span.isTokChar a = true) →
      ∃ ts, Span.splitGo [] acc false =
        ts ++ [String.mk (((acc.reverse ++ []).reverse.takeWhile Span.isTokChar).reverse)] := by
    intro acc haccw
    refine ⟨[], ?_⟩
    simp only [Span.splitGo, List.append_nil, List.nil_append]
    rw [trailing_all _ _ (by intro a ha; exact haccw a (List.mem_reverse.mp ha))]
  intro fuel
  induction fuel with
  | zero =>
    intro cs hcs
    have hnil : cs = [] := List.length_eq_zero.mp (Nat.le_zero.mp hcs)
    subst hnil
    constructor
    · intro acc haccw _
      exact base acc haccw
    · intro acc hex
      obtain ⟨g, hg, _⟩ := hex
      cases hg
  | succ n ihn =>
    intro cs hcs
    cases cs with
    | nil =>
      constructor
      · intro acc haccw _
        exact base acc haccw
      · intro acc hex
        obtain ⟨g, hg, _⟩ := hex
        cases hg
    | cons c cs' =>
      have hcs' : cs'.length ≤ n := by simpa using hcs
      have ih := ihn cs' hcs'
      constructor
      · intro acc haccw hex
        simp only [Span.splitGo]
        by_cases hp : Span.isSplitPunct c
        · rw [if_pos hp]
          have hcbad : Span.isTokChar c = false := by simp [Span.isTokChar, hp]
          obtain ⟨hne, hex'⟩ := lastGood_tail hex hcbad
          obtain ⟨ts, hts⟩ := ih.1 [] (by intro a ha; cases ha)
            (by simpa using hex')
          refine ⟨String.mk acc.reverse :: String.mk [c] :: ts, ?_⟩
          rw [hts]
          rw [trailing_skip Span.isTokChar acc.reverse c cs' hcbad]
          simp
        · rw [if_neg hp]
          by_cases hws : c.isWhitespace
          · rw [if_pos hws]
            have hcbad : Span.isTokChar c = false := by simp [Span.isTokChar, hws]
            obtain ⟨hne, hex'⟩ := lastGood_tail hex hcbad
            obtain ⟨ts, hts⟩ := ih.2 [c] hex'
            refine ⟨String.mk acc.reverse :: ts, ?_⟩
            rw [hts]
            rw [trailing_skip Span.isTokChar acc.reverse c cs' hcbad]
            simp
          · rw [if_neg hws]
            have hcgood : Span.isTokChar c = true := isTokChar_of_flags c
              (by simpa using hp) (by simpa using hws)
            obtain ⟨ts, hts⟩ := ih.1 (c :: acc)
              (by intro a ha
                  rcases List.mem_cons.mp ha with h | h
                  · subst h; exact hcgood
                  · exact haccw a h)
              (by
                obtain ⟨g, hg, hgood⟩ := hex
                refine ⟨g, ?_, hgood⟩
                rw [← hg]
                simp)
            refine ⟨ts, ?_⟩
            rw [hts]
            have : (c :: acc).reverse ++ cs' = acc.reverse ++ c :: cs' := by simp
            rw [this]
      · intro acc hex
        simp only [Span.splitGo]
        have hex0 : ∃ g, (([] : List Char) ++ c :: cs').getLast? = some g ∧
            Span.isTokChar g = true := by simpa using hex
        by_cases hws : c.isWhitespace
        · rw [if_pos hws]
          have hcbad : Span.isTokChar c = false := by simp [Span.isTokChar, hws]
          obtain ⟨hne, hex'⟩ := lastGood_tail hex0 hcbad
          obtain ⟨ts, hts⟩ := ih.2 (c :: acc) hex'
          refine ⟨ts, ?_⟩
          rw [hts]
          have htr : ((c :: cs').reverse.takeWhile Span.isTokChar).reverse =
              (cs'.reverse.takeWhile Span.isTokChar).reverse := by
            have := trailing_skip Span.isTokChar [] c cs' hcbad
            simpa using this
          rw [htr]
        · rw [if_neg hws]
          by_cases hp : Span.isSplitPunct c
          · rw [if_pos hp]
            have hcbad : Span.isTokChar c = false := by simp [Span.isTokChar, hp]
            obtain ⟨hne, hex'⟩ := lastGood_tail hex0 hcbad
            obtain ⟨ts, hts⟩ := ih.1 [] (by intro a ha; cases ha) (by simpa using hex')
            refine ⟨String.mk acc.reverse :: "" :: String.mk [c] :: ts, ?_⟩
            rw [hts]
            have htr : ((c :: cs').reverse.takeWhile Span.isTokChar).reverse =
                (cs'.reverse.takeWhile Span.isTokChar).reverse := by
              have := trailing_skip Span.isTokChar [] c cs' hcbad
              simpa using this
            rw [htr]
            simp
          · rw [if_neg hp]
            have hcgood : Span.isTokChar c = true := isTokChar_of_flags c
              (by simpa using hp) (by simpa using hws)
            obtain ⟨ts, hts⟩ := ih.1 [c] (by intro a ha; simp at ha; subst ha; exact hcgood)
              (by simpa using hex0)
            refine ⟨String.mk acc.reverse :: ts, ?_⟩
            rw [hts]
            simp

/-- The split array always has odd length: words at even indices,
separators at odd indices. -/
theorem splitGo_parity :
    ∀ (fuel : Nat) (cs : List Char), cs.length ≤ fuel → ∀ acc : List Char,
      (Span.splitGo cs acc false).length % 2 = 1 ∧
      (Span.splitGo cs acc true).length % 2 = 0 := by
  intro fuel
  induction fuel with
  | zero =>
    intro cs hcs acc
    have hnil : cs = [] := List.length_eq_zero.mp (Nat.le_zero.mp hcs)
    subst hnil
    simp [Span.splitGo]
  | succ n ihn =>
    intro cs hcs acc
    cases cs with
    | nil => simp [Span.splitGo]
    | cons c cs' =>
      have hcs' : cs'.length ≤ n := by simpa using hcs
      constructor
      · simp only [Span.splitGo]
        by_cases hp : Span.isSplitPunct c
        · rw [if_pos hp]
          have := (ihn cs' hcs' []).1
          simp only [List.length_cons]
          omega
        · rw [if_neg hp]
          by_cases hws : c.isWhitespace
          · rw [if_pos hws]
            have := (ihn cs' hcs' [c]).2
            simp only [List.length_cons]
            omega
          · rw [if_neg hws]
            exact (ihn cs' hcs' (c :: acc)).1
      · simp only [Span.splitGo]
        by_cases hws : c.isWhitespace
        · rw [if_pos hws]
          exact (ihn cs' hcs' (c :: acc)).2
        · rw [if_neg hws]
          by_cases hp : Span.isSplitPunct c
          · rw [if_pos hp]
            have := (ihn cs' hcs' []).1
            simp only [List.length_cons]
            omega
          · rw [if_neg hp]
            have := (ihn cs' hcs' [c]).1
            simp only [List.length_cons]
            omega

theorem concatAll_data_append :
    ∀ (A B : List String),
      (Span.concatAll (A ++ B)).data = (Span.concatAll A).data ++ (Span.concatAll B).data := by
  intro A
  induction A with
  | nil => intro B; simp [Span.concatAll]
  | cons t A ih =>
    intro B
    rw [List.cons_append, concatAll_cons, concatAll_cons, strData_append, strData_append, ih B]
    simp

/-- If the input starts with a token character (not whitespace, not
boundary punctuation), the span element capitalizes the first token: the
first output character is the uppercased first input character. -/
theorem span_first_capitalized (s : String) (c : Char) (rest : List Char)
    (hdata : s.data = c :: rest) (hgood : Span.isTokChar c = true) :
    (Span.apStyleTitleCase s).data.head? = some c.toUpper := by
  have hs : s ≠ "" := by
    intro h
    rw [h] at hdata
    cases hdata
  have hp : Span.isSplitPunct c = false := by
    simp only [Span.isTokChar, Bool.not_eq_true', Bool.or_eq_false_iff] at hgood
    exact hgood.1
  have hws : c.isWhitespace = false := by
    simp only [Span.isTokChar, Bool.not_eq_true', Bool.or_eq_false_iff] at hgood
    exact hgood.2
  have hsplit : ∃ w ts, Span.jsSplit s = String.mk (c :: w) :: ts := by
    unfold Span.jsSplit
    rw [hdata]
    simp only [Span.splitGo, hp, hws, Bool.false_eq_true, if_false]
    obtain ⟨w, ts, hw⟩ := splitGo_first rest [c]
    exact ⟨w, ts, by simpa using hw⟩
  obtain ⟨w, ts, hsp⟩ := hsplit
  simp only [Span.apStyleTitleCase, if_neg hs]
  rw [hsp]
  show ((Span.mapTok (String.mk (c :: w) :: ts).length 0 (String.mk (c :: w)) ++
    Span.concatAll ((List.enumFrom 1 ts).map
      (fun p => Span.mapTok (String.mk (c :: w) :: ts).length p.1 p.2))).data).head? = _
  have hmt : Span.mapTok (String.mk (c :: w) :: ts).length 0 (String.mk (c :: w)) =
      Span.capitalize (String.mk (c :: w)) := by
    unfold Span.mapTok
    rw [if_neg (by omega)]
    rw [if_neg (by intro h; exact h.1 rfl)]
  rw [hmt]
  rw [strData_append]
  rfl

/-- If the input ends with a token character, the span element
capitalizes the last token: the output ends with the capitalized
trailing token run. -/
theorem span_last_capitalized (s : String) (g : Char)
    (hg : s.data.getLast? = some g) (hgood : Span.isTokChar g = true) :
    ∃ pre, (Span.apStyleTitleCase s).data =
      pre ++ capFirst ((s.data.reverse.takeWhile Span.isTokChar).reverse) := by
  have hsd : s.data ≠ [] := by
    intro h
    rw [h] at hg
    cases hg
  have hs : s ≠ "" := by
    intro h
    rw [h] at hsd
    exact hsd rfl
  obtain ⟨ts, hts⟩ := (splitGo_last_aux s.data.length s.data le_rfl).1 []
    (by intro a ha; cases ha) (by simpa using ⟨g, hg, hgood⟩)
  simp only [List.reverse_nil, List.nil_append] at hts
  have hall : Span.jsSplit s = ts ++
      [String.mk ((s.data.reverse.takeWhile Span.isTokChar).reverse)] := hts
  have hpar : (Span.jsSplit s).length % 2 = 1 :=
    (splitGo_parity s.data.length s.data le_rfl []).1
  set T : List Char := (s.data.reverse.takeWhile Span.isTokChar).reverse with hT
  have hn : (Span.jsSplit s).length = ts.length + 1 := by
    rw [hall]
    simp
  simp only [Span.apStyleTitleCase, if_neg hs]
  rw [hall]
  have henum : (ts ++ [String.mk T]).enum =
      ts.enum ++ [(ts.length, String.mk T)] := by
    rw [List.enum_append]
    rfl
  rw [henum, List.map_append]
  rw [concatAll_data_append]
  have hmt : Span.mapTok (ts ++ [String.mk T]).length ts.length (String.mk T) =
      Span.capitalize (String.mk T) := by
    unfold Span.mapTok
    have hlen2 : (ts ++ [String.mk T]).length = ts.length + 1 := by simp
    rw [if_neg (by
      rw [hn] at hpar
      omega)]
    rw [if_neg (by
      intro h
      exact h.2.1 (by rw [hlen2]; omega))]
  refine ⟨(Span.concatAll (ts.enum.map
    (fun p => Span.mapTok (ts ++ [String.mk T]).length p.1 p.2))).data, ?_⟩
  have hlast : (Span.concatAll ([(ts.length, String.mk T)].map
      (fun p => Span.mapTok (ts ++ [String.mk T]).length p.1 p.2))).data = capFirst T := by
    simp only [List.map_cons, List.map_nil]
    rw [hmt]
    show (Span.capitalize (String.mk T) ++ Span.concatAll []).data = capFirst T
    rw [strData_append]
    simp [Span.capitalize, Span.concatAll]
  rw [hlast]

/-! ### Claim C4 -/

/-- Claim C4, counterexample: a leading separator makes the first word
interior in both variants (so the stop-word `"to"` stays lowercase), and
a trailing separator makes the last word interior (so `"the"` / `"a"`
stay lowercase); the claimed unconditional first/last capitalization
fails. -/
theorem claim4_first_last_cex :
    Elem.apStyleTitleCase " to be" = " to Be" ∧
    Span.apStyleTitleCase " to be" = " to Be" ∧
    Elem.apStyleTitleCase "to the!" = "To the!" ∧
    Span.apStyleTitleCase "to a " = "To a " ∧
    (" to Be" : String) ≠ " To Be" ∧ ("To the!" : String) ≠ "To The!" ∧
    ("To a " : String) ≠ "To A " := by decide

/-- Claim C4, amended: the first/last capitalization holds when the
string actually *starts/ends inside a word token*.  If the input starts
with a word character, the first word is capitalized (first output
character uppercased) in both variants; if it ends with a word
character, the output ends with the capitalized trailing word run in
both variants — even for stop-words, as in
`apStyleTitleCase("to be or not to be") = "To Be or Not to Be"`.  With a
leading (resp. trailing) separator the first (resp. last) word is
treated as interior instead. -/
theorem claim4_first_last_words :
    (∀ (s : String) (c : Char) (rest : List Char), s.data = c :: rest →
      isWordChar c = true →
      (Elem.apStyleTitleCase s).data.head? = some c.toLower.toUpper) ∧
    (∀ (s : String) (c : Char) (rest : List Char), s.data = c :: rest →
      Span.isTokChar c = true →
      (Span.apStyleTitleCase s).data.head? = some c.toUpper) ∧
    (∀ (s : String) (g : Char), s.data.getLast? = some g → isWordChar g = true →
      ∃ pre, (Elem.apStyleTitleCase s).data =
        pre ++ capFirst (((jsToLower s).data.reverse.takeWhile isWordChar).reverse)) ∧
    (∀ (s : String) (g : Char), s.data.getLast? = some g → Span.isTokChar g = true →
      ∃ pre, (Span.apStyleTitleCase s).data =
        pre ++ capFirst ((s.data.reverse.takeWhile Span.isTokChar).reverse)) ∧
    Elem.apStyleTitleCase "to be or not to be" = "To Be or Not to Be" ∧
    Span.apStyleTitleCase "to be or not to be" = "To Be or Not to Be" :=
  ⟨elem_first_capitalized, span_first_capitalized, elem_last_capitalized,
    span_last_capitalized, by decide, by decide⟩

theorem claim4_first_last_words_wit :
    (Elem.apStyleTitleCase "to be").data.head? = some ('t'.toLower.toUpper) ∧
    (Span.apStyleTitleCase "to be").data.head? = some ('t'.toUpper) ∧
    (∃ pre, (Elem.apStyleTitleCase "to be").data =
      pre ++ capFirst (((jsToLower "to be").data.reverse.takeWhile isWordChar).reverse)) ∧
    (∃ pre, (Span.apStyleTitleCase "to be").data =
      pre ++ capFirst ((("to be" : String).data.reverse.takeWhile Span.isTokChar).reverse)) :=
  ⟨claim4_first_last_words.1 "to be" 't' ("o be" : String).data (by decide) (by decide),
    claim4_first_last_words.2.1 "to be" 't' ("o be" : String).data (by decide) (by decide),
    claim4_first_last_words.2.2.1 "to be" 'e' (by decide) (by decide),
    claim4_first_last_words.2.2.2.1 "to be" 'e' (by decide) (by decide)⟩


theorem strIncludes_empty_needle (hay : String) : Span.strIncludes hay "" = true := by
  show Span.listOccurs [] hay.data = true
  cases hay.data with
  | nil => rfl
  | cons c t => rfl

/-! ### Claim C1 -/

/-- Claim C1, counterexample: the autonomous element's recompute starts
with `if (!text) return;`, and the `text` property setter
(`this.props.text = value; this.updateTextContent(value);`) can trigger
a recompute with empty source.  From the state with source `"hello"`
and displayed `"stale"`, setting `text` to `""` leaves the display at
`"stale"`, which differs from the composition
`displaySpecElem false none "" = ""` of the new triple; and from the
same triple with prior display `"other"` the same recompute yields
`"other"` — the display is then an independent source of truth, so the
claim as stated is false. -/
theorem claim1_stale_display_cex :
    (Elem.setText ⟨"hello", none, false, "stale"⟩ "").text = "" ∧
    (Elem.setText ⟨"hello", none, false, "stale"⟩ "").textContent = "stale" ∧
    displaySpecElem false none "" = "" ∧
    (Elem.setText ⟨"hello", none, false, "other"⟩ "").textContent = "other" ∧
    ("stale" : String) ≠ "" ∧ ("stale" : String) ≠ "other" := by decide

/-- Claim C1, amended: every recompute (`updateTextContent`) sets the
rendered text to exactly the spec's composition
`display = StyleEnabled ? TitleCaser(Truncator(source, length)) : Truncator(source, length)`
of its three inputs, leaves the three inputs untouched, and its result
does not depend on the previously displayed text — *except* that the
autonomous element's recompute begins with `if (!text) return;`, so on
empty source text it performs nothing and leaves the prior display in
place; its equations therefore hold for nonempty source text, while the
span variant satisfies them unconditionally. -/
theorem claim1_display_composition :
    ∀ (st : ElemState) (st2 : SpanState) (text : String),
      (text ≠ "" →
        (Elem.updateTextContent st text).textContent =
          displaySpecElem st.apstyle st.textlength text) ∧
      (Elem.updateTextContent st text).text = st.text ∧
      (Elem.updateTextContent st text).textlength = st.textlength ∧
      (Elem.updateTextContent st text).apstyle = st.apstyle ∧
      (Span.updateTextContent st2 text).textContent =
        displaySpecSpan st2.apstyleAttr st2.textlengthAttr text ∧
      (∀ st' : ElemState, st'.apstyle = st.apstyle → st'.textlength = st.textlength →
        text ≠ "" → (Elem.updateTextContent st' text).textContent =
          (Elem.updateTextContent st text).textContent) ∧
      (∀ st2' : SpanState, st2'.apstyleAttr = st2.apstyleAttr →
        st2'.textlengthAttr = st2.textlengthAttr →
        (Span.updateTextContent st2' text).textContent =
          (Span.updateTextContent st2 text).textContent) ∧
      (text = "" → Elem.updateTextContent st text = st) := by
  intro st st2 text
  refine ⟨?_, ?_, ?_, ?_, ?_, ?_, ?_, ?_⟩
  · intro ht
    simp [Elem.updateTextContent, ht, displaySpecElem]
  · by_cases ht : text = "" <;> simp [Elem.updateTextContent, ht]
  · by_cases ht : text = "" <;> simp [Elem.updateTextContent, ht]
  · by_cases ht : text = "" <;> simp [Elem.updateTextContent, ht]
  · simp [Span.updateTextContent, displaySpecSpan]
  · intro st' h1 h2 ht
    simp [Elem.updateTextContent, ht, h1, h2]
  · intro st2' h1 h2
    simp [Span.updateTextContent, h1, h2]
  · intro ht
    simp [Elem.updateTextContent, ht]

theorem claim1_display_composition_wit :
    (Elem.updateTextContent ⟨"hello world", some "9", true, "stale"⟩ "hello world").textContent =
      displaySpecElem true (some "9") "hello world" ∧
    (Span.updateTextContent ⟨"hello world", some "9", true, "stale"⟩ "hello world").textContent =
      displaySpecSpan true (some "9") "hello world" :=
  ⟨(claim1_display_composition ⟨"hello world", some "9", true, "stale"⟩
      ⟨"hello world", some "9", true, "stale"⟩ "hello world").1 (by decide),
    (claim1_display_composition ⟨"hello world", some "9", true, "stale"⟩
      ⟨"hello world", some "9", true, "stale"⟩ "hello world").2.2.2.2.1⟩

/-! ### Claim C9 -/

/-- Claim C9, counterexample: when the observed text (minus its last 3
characters, case-insensitively) is a substring of the current source
text, the autonomous element leaves the source text alone but does
*not* recompute the display (its handler has no else branch): observing
`"hello"` with source `"hello world"` leaves `"hello"` displayed instead
of the recomputed `"hello world"`. -/
theorem claim9_self_render_cex :
    (Elem.mutationTextRecord ⟨"hello world", none, false, "hello world"⟩ "hello").text =
      "hello world" ∧
    (Elem.mutationTextRecord ⟨"hello world", none, false, "hello world"⟩
      "hello").textContent = "hello" ∧
    displaySpecElem false none "hello world" = "hello world" ∧
    ("hello" : String) ≠ "hello world" := by decide

/-- Claim C9, amended: on a content mutation with observed text `t` and
current source `s`, let `cond` be "`lower(t)` minus its last 3
characters is a substring of `lower(s)`".  If `cond` holds, both
variants keep `s` as the source; the span variant recomputes the display
from `s`, but the autonomous variant performs no recompute and leaves
the observed text displayed.  If `cond` fails, both variants store `t`
as the new source and recompute the display from `t`. -/
theorem claim9_mutation_policy :
    ∀ (e : ElemState) (sp : SpanState) (t : String),
      (Span.strIncludes (jsToLower e.text) (jsSliceDropLast3 (jsToLower t)) = true →
        (Elem.mutationTextRecord e t).text = e.text ∧
        (Elem.mutationTextRecord e t).textContent = t) ∧
      (Span.strIncludes (jsToLower e.text) (jsSliceDropLast3 (jsToLower t)) = false →
        (Elem.mutationTextRecord e t).text = t ∧
        (Elem.mutationTextRecord e t).textContent =
          displaySpecElem e.apstyle e.textlength t) ∧
      (Span.strIncludes (jsToLower sp.text) (jsSliceDropLast3 (jsToLower t)) = true →
        (Span.mutationTextRecord sp t).text = sp.text ∧
        (Span.mutationTextRecord sp t).textContent =
          displaySpecSpan sp.apstyleAttr sp.textlengthAttr sp.text) ∧
      (Span.strIncludes (jsToLower sp.text) (jsSliceDropLast3 (jsToLower t)) = false →
        (Span.mutationTextRecord sp t).text = t ∧
        (Span.mutationTextRecord sp t).textContent =
          displaySpecSpan sp.apstyleAttr sp.textlengthAttr t) := by
  intro e sp t
  refine ⟨?_, ?_, ?_, ?_⟩
  · intro hc
    have hnc : ¬ (Span.strIncludes (jsToLower e.text)
        (jsSliceDropLast3 (jsToLower t)) = false) := by
      rw [hc]; exact fun h => by cases h
    simp [Elem.mutationTextRecord, hnc]
  · intro hc
    have ht : t ≠ "" := by
      intro h
      subst h
      rw [show jsSliceDropLast3 (jsToLower "") = "" from rfl] at hc
      rw [strIncludes_empty_needle] at hc
      cases hc
    simp [Elem.mutationTextRecord, hc, Elem.updateTextContent, ht, displaySpecElem]
  · intro hc
    have hnc : ¬ (Span.strIncludes (jsToLower sp.text)
        (jsSliceDropLast3 (jsToLower t)) = false) := by
      rw [hc]; exact fun h => by cases h
    simp [Span.mutationTextRecord, hnc, Span.updateTextContent, displaySpecSpan]
  · intro hc
    simp [Span.mutationTextRecord, hc, Span.updateTextContent, displaySpecSpan]

theorem claim9_mutation_policy_wit :
    (Elem.mutationTextRecord ⟨"hello world", none, false, "hello world"⟩
      "goodbye friend").text = "goodbye friend" ∧
    (Elem.mutationTextRecord ⟨"hello world", none, false, "hello world"⟩
      "goodbye friend").textContent = displaySpecElem false none "goodbye friend" :=
  (claim9_mutation_policy ⟨"hello world", none, false, "hello world"⟩
    ⟨"hello world", none, false, "hello world"⟩ "goodbye friend").2.1 (by decide)
